import Mathlib

/-!
Shallow embedding of `src/algorithms/marchingSquare.js` (marching-squares
isoline generation) and verification of its specification.

Modelling conventions:
* JavaScript numbers are embedded as rationals (`ℚ`), read exactly from the
  source; the spec treats the samples, threshold and coordinates as exact
  numeric data.
* A JavaScript numeric value that may be non-finite is embedded as
  `Option ℚ`: `some q` is the finite number `q`, and `none` models a
  non-finite value.  The only source of non-finite values in the program is
  the `Infinity` sentinel returned by `linearInterpolation` when the two
  corner values coincide; JavaScript arithmetic propagates it (e.g.
  `1 - Infinity`, or adding/multiplying it into a coordinate) to another
  non-finite value, which `Option.map` models by propagating `none`.
* `marchingSquare` returns `Option (List Segment)`: `none` models the
  `TypeError` thrown by `discreteData[0].length` when `discreteData` is the
  empty array; `some segs` is a normal return.
* Out-of-range list indexing is embedded with `List.getD`; every access the
  algorithm performs on a rectangular grid is in range, and the quantified
  theorems below carry the rectangularity hypothesis of the spec's
  ScalarField data model where it matters.
-/

namespace MarchingSquare

/-- A JavaScript numeric value: `some q` is finite, `none` is non-finite
(the `Infinity` sentinel and anything derived from it). -/
abbrev JsVal := Option ℚ

/-- A world-space point `[x, y]` as emitted by the program. -/
abbrev Point := JsVal × JsVal

/-- An isoline segment `[[x1, y1], [x2, y2]]`. -/
abbrev Segment := Point × Point

/-- `linearInterpolation(v1, v2, v_iso)`:
returns `Infinity` (modelled `none`) when `v2 === v1`, otherwise
`(v_iso - v1) / (v2 - v1)`. -/
def linearInterpolation (v1 v2 viso : ℚ) : JsVal :=
  if v2 = v1 then none else some ((viso - v1) / (v2 - v1))

/-- `basicLineTable`: the fixed 16-entry lookup table, index = corner-binary
sum, entry = list of edge-index pairs. -/
def basicLineTable : List (List (Nat × Nat)) :=
  [ [],
    [(0, 3)],
    [(0, 1)],
    [(1, 3)],
    [(1, 2)],
    [(0, 1), (2, 3)],
    [(0, 2)],
    [(2, 3)],
    [(2, 3)],
    [(0, 2)],
    [(0, 3), (1, 2)],
    [(1, 2)],
    [(1, 3)],
    [(0, 1)],
    [(0, 3)],
    [] ]

/-- `lineEndPoints`: the per-edge fixed base offsets
`[[0.5, 1], [1, 0.5], [0.5, 0], [0, 0.5]]`. -/
def lineEndPoints : List (ℚ × ℚ) :=
  [(1/2, 1), (1, 1/2), (1/2, 0), (0, 1/2)]

/-- `discreteData[i][j]`: grid access.  The default is never read for the
in-range accesses the algorithm performs on a rectangular grid. -/
def sample (d : List (List ℚ)) (i j : Nat) : ℚ :=
  (d.getD i []).getD j 0

/-- The corner values stored for the square at row `i`, column `j`:
`[discreteData[i+1][j], discreteData[i+1][j+1], discreteData[i][j+1],
discreteData[i][j]]`. -/
def cornerValue (d : List (List ℚ)) (i j : Nat) : List ℚ :=
  [sample d (i + 1) j, sample d (i + 1) (j + 1), sample d i (j + 1), sample d i j]

/-- `Square.getCornerBinary`: `cornerValue.map(val => val > isoValue ? 1 : 0)`. -/
def getCornerBinary (cv : List ℚ) (isoValue : ℚ) : List Nat :=
  cv.map (fun val => if val > isoValue then 1 else 0)

/-- The `sum` accumulated in `Square.getBasicLines`:
`forEach((val, ind) => sum += val * 2 ** ind)`. -/
def binarySum (bits : List Nat) : Nat :=
  (bits.enum.map (fun p => p.2 * 2 ^ p.1)).sum

/-- `Square.getBasicLines`: look the corner-binary sum up in
`basicLineTable`, then override the two saddle codes 5 and 10 using the
mean-versus-isoValue rule (`cornerValue.reduce((a,b) => a+b) / 4 >= isoValue`). -/
def getBasicLines (cv : List ℚ) (isoValue : ℚ) : List (Nat × Nat) :=
  let sum := binarySum (getCornerBinary cv isoValue)
  if sum = 5 then
    if cv.sum / 4 ≥ isoValue then [(0, 3), (1, 2)] else [(0, 1), (2, 3)]
  else if sum = 10 then
    if cv.sum / 4 ≥ isoValue then [(0, 1), (2, 3)] else [(0, 3), (1, 2)]
  else
    basicLineTable.getD sum []

/-- The raw interpolation value computed for side `k` in the loop of
`Square.getActualLines`:
`linearInterpolation(cornerValue[k], cornerValue[(k+1) % 4], isoValue)`. -/
def rawInterpolation (cv : List ℚ) (isoValue : ℚ) (k : Nat) : JsVal :=
  linearInterpolation (cv.getD k 0) (cv.getD ((k + 1) % 4) 0) isoValue

/-- The `interpoValues` array of `Square.getActualLines`: the four raw
interpolation values, then the assignments
`interpoValues[1] = 1 - interpoValues[1]` and
`interpoValues[2] = 1 - interpoValues[2]`. -/
def interpoValues (cv : List ℚ) (isoValue : ℚ) : List JsVal :=
  let ivs := (List.range 4).map (fun k => rawInterpolation cv isoValue k)
  let ivs := ivs.set 1 ((ivs.getD 1 none).map (fun q => 1 - q))
  ivs.set 2 ((ivs.getD 2 none).map (fun q => 1 - q))

/-- The world-space point emitted for edge `e` of the square at column
`column`, row `row`:
`x = lngStart + (column + lineEndPoints[e][0] + (e === 0 || e === 2 ? interpoValues[e] : 0.5)) * length`,
`y = latStart + (row + lineEndPoints[e][1] + (e === 1 || e === 3 ? interpoValues[e] : 0.5)) * length`. -/
def edgePoint (iv : List JsVal) (column row : Nat) (lngStart latStart len : ℚ)
    (e : Nat) : Point :=
  ((if e = 0 ∨ e = 2 then iv.getD e none else some (1/2)).map
      (fun t => lngStart + ((column : ℚ) + (lineEndPoints.getD e (0, 0)).1 + t) * len),
   (if e = 1 ∨ e = 3 then iv.getD e none else some (1/2)).map
      (fun t => latStart + ((row : ℚ) + (lineEndPoints.getD e (0, 0)).2 + t) * len))

/-- `Square.getActualLines`: one segment per pair in `basicLines`, each end
given by `edgePoint`. -/
def getActualLines (cv : List ℚ) (basicLines : List (Nat × Nat)) (column row : Nat)
    (lngStart latStart len isoValue : ℚ) : List Segment :=
  let iv := interpoValues cv isoValue
  basicLines.map (fun l =>
    (edgePoint iv column row lngStart latStart len l.1,
     edgePoint iv column row lngStart latStart len l.2))

/-- The segments contributed by the square at row `i`, column `j`
(the body of the double loop of `marchingSquare`). -/
def squareSegments (d : List (List ℚ)) (isoValue lngStart latStart gridSize : ℚ)
    (i j : Nat) : List Segment :=
  getActualLines (cornerValue d i j) (getBasicLines (cornerValue d i j) isoValue)
    j i lngStart latStart gridSize isoValue

/-- `marchingSquare(discreteData, isoValue, lngStart, latStart, gridSize)`.
`none` models the `TypeError` raised by `discreteData[0].length` on an empty
outer array; otherwise the double loop over rows `0 ≤ i < rowN - 1` and
columns `0 ≤ j < columnN - 1` appends each square's segments in order. -/
def marchingSquare (discreteData : List (List ℚ))
    (isoValue lngStart latStart gridSize : ℚ) : Option (List Segment) :=
  match discreteData.head? with
  | none => none
  | some row0 =>
    let columnN := row0.length
    let rowN := discreteData.length
    some ((List.range (rowN - 1)).flatMap (fun i =>
      (List.range (columnN - 1)).flatMap (fun j =>
        squareSegments discreteData isoValue lngStart latStart gridSize i j)))

/-- The endpoint formula of claim C1 as amended.  Modelled from the spec text
(amended): the emitted point for edge `e` with fractional position `t` is the
spec's formula shifted by half a cell on both axes — for edges 0 and 2,
`x = lngStart + (col + 1/2 + t) · size` and `y = latStart + (row + baseY + 1/2) · size`
with `baseY = 1` for edge 0 and `baseY = 0` for edge 2; for edges 1 and 3,
`x = lngStart + (col + baseX + 1/2) · size` with `baseX = 1` for edge 1 and
`baseX = 0` for edge 3, and `y = latStart + (row + 1/2 + t) · size`.
A non-finite `t` makes the along-edge coordinate non-finite. -/
def amendedEdgePoint (t : JsVal) (column row : Nat) (lngStart latStart size : ℚ) :
    Nat → Point
  | 0 => (t.map (fun q => lngStart + ((column : ℚ) + 1/2 + q) * size),
          some (latStart + ((row : ℚ) + 1 + 1/2) * size))
  | 1 => (some (lngStart + ((column : ℚ) + 1 + 1/2) * size),
          t.map (fun q => latStart + ((row : ℚ) + 1/2 + q) * size))
  | 2 => (t.map (fun q => lngStart + ((column : ℚ) + 1/2 + q) * size),
          some (latStart + ((row : ℚ) + 0 + 1/2) * size))
  | 3 => (some (lngStart + ((column : ℚ) + 0 + 1/2) * size),
          t.map (fun q => latStart + ((row : ℚ) + 1/2 + q) * size))
  | _ => (none, none)

/-- Table 1 as stated by claim C4: the claimed code → pattern map for the
fourteen unambiguous codes.  The claim leaves codes 5 and 10 to the saddle
rule; those two entries are placeholders that are never reached under the
hypotheses of the C4 theorem. -/
def specTable1 : List (List (Nat × Nat)) :=
  [ [],
    [(0, 3)],
    [(0, 1)],
    [(1, 3)],
    [(1, 2)],
    [],
    [(0, 2)],
    [(2, 3)],
    [(2, 3)],
    [(0, 2)],
    [],
    [(1, 2)],
    [(1, 3)],
    [(0, 1)],
    [(0, 3)],
    [] ]

/-- Helper: `interpoValues` written out as an explicit four-element list:
raw values at indices 0 and 3, reflected values at indices 1 and 2. -/
theorem interpoValues_explicit (cv : List ℚ) (isoValue : ℚ) :
    interpoValues cv isoValue =
      [rawInterpolation cv isoValue 0,
       (rawInterpolation cv isoValue 1).map (fun q => 1 - q),
       (rawInterpolation cv isoValue 2).map (fun q => 1 - q),
       rawInterpolation cv isoValue 3] := by
  simp [interpoValues, List.range_succ]

/-- Helper: every edge index occurring in a resolved line pattern is one of
`0, 1, 2, 3`. -/
theorem getBasicLines_edge_lt (cv : List ℚ) (isoValue : ℚ) (p : Nat × Nat)
    (hp : p ∈ getBasicLines cv isoValue) : p.1 < 4 ∧ p.2 < 4 := by
  have htab : ∀ l ∈ basicLineTable, ∀ q ∈ l, q.1 < 4 ∧ q.2 < 4 := by decide
  simp only [getBasicLines] at hp
  split_ifs at hp <;>
    first
      | (fin_cases hp <;> exact ⟨by decide, by decide⟩)
      | (rcases Nat.lt_or_ge (binarySum (getCornerBinary cv isoValue)) 16 with h | h
         · rw [List.getD_eq_getElem _ _ (by simpa [basicLineTable] using h)] at hp
           exact htab _ (List.getElem_mem _) p hp
         · rw [List.getD_eq_default _ _ (by simpa [basicLineTable] using h)] at hp
           simp at hp)

/-- Helper: every segment of the output comes from some square `(i, j)` of
the enumerated range and one pair of its resolved line pattern, via
`edgePoint`. -/
theorem mem_marchingSquare (d : List (List ℚ)) (isoValue lngStart latStart gridSize : ℚ)
    (out : List Segment) (h : marchingSquare d isoValue lngStart latStart gridSize = some out)
    (s : Segment) (hs : s ∈ out) :
    ∃ i j, i < d.length - 1 ∧ j < (d.headD []).length - 1 ∧
      ∃ l ∈ getBasicLines (cornerValue d i j) isoValue,
        s = (edgePoint (interpoValues (cornerValue d i j) isoValue) j i
               lngStart latStart gridSize l.1,
             edgePoint (interpoValues (cornerValue d i j) isoValue) j i
               lngStart latStart gridSize l.2) := by
  cases d with
  | nil => simp [marchingSquare] at h
  | cons r0 rest =>
    simp only [marchingSquare, List.head?_cons, Option.some.injEq] at h
    subst h
    rw [List.mem_flatMap] at hs
    obtain ⟨i, hi, hs⟩ := hs
    rw [List.mem_flatMap] at hs
    obtain ⟨j, hj, hs⟩ := hs
    rw [List.mem_range] at hi hj
    refine ⟨i, j, by simpa using hi, by simpa using hj, ?_⟩
    unfold squareSegments getActualLines at hs
    rw [List.mem_map] at hs
    obtain ⟨l, hl, rfl⟩ := hs
    exact ⟨l, hl, rfl⟩

/-- Helper: for a legal edge index, `edgePoint` computes exactly the amended
per-edge endpoint formula. -/
theorem edgePoint_eq_amended (iv : List JsVal) (column row : Nat)
    (lngStart latStart size : ℚ) (e : Nat) (he : e < 4) :
    edgePoint iv column row lngStart latStart size e =
      amendedEdgePoint (iv.getD e none) column row lngStart latStart size e := by
  interval_cases e <;>
    simp [edgePoint, amendedEdgePoint, lineEndPoints, List.getD]

/-- Helper: full evaluation of the concrete scenario
`marchingSquare([[1,1],[1,10]], 5, 0, 0, 1)`. -/
theorem marchingSquare_scenario :
    marchingSquare [[1, 1], [1, 10]] 5 0 0 1 =
      some [((some (1/2 + 4/9), some (3/2)), (some (3/2), some (1/2 + 4/9)))] := by
  norm_num [marchingSquare, squareSegments, getActualLines, getBasicLines,
    getCornerBinary, binarySum, cornerValue, sample, interpoValues_explicit,
    rawInterpolation, linearInterpolation, edgePoint, basicLineTable,
    lineEndPoints, List.range_succ, List.enum, List.getD]

/-- C1 (counterexample): in the scenario `marchingSquare([[1,1],[1,10]], 5, 0, 0, 1)`
the single square's pattern is `[(0, 1)]` and the fractional crossing on edge 0
is `t = 4/9`, so the claim predicts the edge-0 endpoint
`(lngStart + (col + t) · gridSize, latStart + (row + 1) · gridSize) = (4/9, 1)`;
the program instead emits `(1/2 + 4/9, 3/2)`. -/
theorem C1_counterexample :
    linearInterpolation 1 10 5 = some (4/9) ∧
    getBasicLines (cornerValue [[1, 1], [1, 10]] 0 0) 5 = [(0, 1)] ∧
    marchingSquare [[1, 1], [1, 10]] 5 0 0 1 =
      some [((some (1/2 + 4/9), some (3/2)), (some (3/2), some (1/2 + 4/9)))] ∧
    ¬((1/2 + 4/9 : ℚ) = 0 + ((0 : ℚ) + 4/9) * 1 ∧ (3/2 : ℚ) = 0 + ((0 : ℚ) + 1) * 1) := by
  refine ⟨by norm_num [linearInterpolation], ?_, marchingSquare_scenario, by norm_num⟩
  norm_num [cornerValue, sample, getBasicLines, getCornerBinary, binarySum,
    List.enum, List.getD, basicLineTable]

/-- C1 (amended): every emitted segment comes from an enumerated square
`(col = j, row = i)` and a pair `(e1, e2)` of its resolved line pattern, and
the endpoint for edge `e` with fractional position `t` is the claim's formula
shifted by half a cell on both axes: for `e = 0`/`2`,
`x = lngStart + (col + 1/2 + t) · gridSize` and
`y = latStart + (row + baseY + 1/2) · gridSize` (`baseY = 1` for edge 0, `0`
for edge 2); for `e = 1`/`3`, `x = lngStart + (col + baseX + 1/2) · gridSize`
(`baseX = 1` for edge 1, `0` for edge 3) and
`y = latStart + (row + 1/2 + t) · gridSize`. -/
theorem C1_amended_endpoint_formula (d : List (List ℚ))
    (isoValue lngStart latStart gridSize : ℚ) (out : List Segment)
    (h : marchingSquare d isoValue lngStart latStart gridSize = some out)
    (s : Segment) (hs : s ∈ out) :
    ∃ i j, i < d.length - 1 ∧ j < (d.headD []).length - 1 ∧
      ∃ l ∈ getBasicLines (cornerValue d i j) isoValue,
        s = (amendedEdgePoint ((interpoValues (cornerValue d i j) isoValue).getD l.1 none)
               j i lngStart latStart gridSize l.1,
             amendedEdgePoint ((interpoValues (cornerValue d i j) isoValue).getD l.2 none)
               j i lngStart latStart gridSize l.2) := by
  obtain ⟨i, j, hi, hj, l, hl, rfl⟩ :=
    mem_marchingSquare d isoValue lngStart latStart gridSize out h s hs
  obtain ⟨h1, h2⟩ := getBasicLines_edge_lt (cornerValue d i j) isoValue l hl
  refine ⟨i, j, hi, hj, l, hl, ?_⟩
  rw [edgePoint_eq_amended _ _ _ _ _ _ _ h1, edgePoint_eq_amended _ _ _ _ _ _ _ h2]

/-- Witness for C1 (amended) at the concrete scenario
`marchingSquare([[1,1],[1,10]], 5, 0, 0, 1)`. -/
theorem C1_amended_endpoint_formula_witness :
    ∃ i j, i < ([[1, 1], [1, 10]] : List (List ℚ)).length - 1 ∧
      j < (([[1, 1], [1, 10]] : List (List ℚ)).headD []).length - 1 ∧
      ∃ l ∈ getBasicLines (cornerValue [[1, 1], [1, 10]] i j) 5,
        (((some (1/2 + 4/9), some (3/2)), (some (3/2), some (1/2 + 4/9))) : Segment) =
          (amendedEdgePoint ((interpoValues (cornerValue [[1, 1], [1, 10]] i j) 5).getD l.1 none)
             j i 0 0 1 l.1,
           amendedEdgePoint ((interpoValues (cornerValue [[1, 1], [1, 10]] i j) 5).getD l.2 none)
             j i 0 0 1 l.2) :=
  C1_amended_endpoint_formula [[1, 1], [1, 10]] 5 0 0 1 _ marchingSquare_scenario _ (by simp)

/-- C2 (counterexample): with corner values `[0, 4, 0, 4]` and `isoValue = 1`
the raw fractional position for edge 2 is `1/4`, but `interpoValues[2]` holds
the reflected `3/4`, and `interpoValues[3]` holds the unreflected raw `3/4`
rather than the reflected value the claim requires for edge 3. -/
theorem C2_counterexample :
    rawInterpolation [0, 4, 0, 4] 1 2 = some (1/4) ∧
    (interpoValues [0, 4, 0, 4] 1).getD 2 none = some (3/4) ∧
    (interpoValues [0, 4, 0, 4] 1).getD 2 none ≠ rawInterpolation [0, 4, 0, 4] 1 2 ∧
    (interpoValues [0, 4, 0, 4] 1).getD 3 none ≠
      (rawInterpolation [0, 4, 0, 4] 1 3).map (fun q => 1 - q) := by
  norm_num [interpoValues_explicit, rawInterpolation, linearInterpolation, List.getD]

/-- C2 (amended): after computing the four raw fractional positions, exactly
the values for edges 1 and 2 are replaced by `1 - t`; the values for edges 0
and 3 are left unreflected. -/
theorem C2_reflects_edges_one_and_two (cv : List ℚ) (isoValue : ℚ) :
    interpoValues cv isoValue =
      [rawInterpolation cv isoValue 0,
       (rawInterpolation cv isoValue 1).map (fun q => 1 - q),
       (rawInterpolation cv isoValue 2).map (fun q => 1 - q),
       rawInterpolation cv isoValue 3] :=
  interpoValues_explicit cv isoValue

/-- C3 (counterexample): on the zero-row grid `[]` the function does not
return an empty segment list — reading `discreteData[0].length` raises a
`TypeError` (modelled by `none`). -/
theorem C3_counterexample :
    marchingSquare [] 0 0 0 1 = none ∧ marchingSquare [] 0 0 0 1 ≠ some [] := by
  constructor <;> simp [marchingSquare]

/-- C3 (amended): for every grid with at least one row and with
`rows < 2` or `columns < 2`, `marchingSquare` returns the empty segment list
without raising; a zero-row grid instead raises a `TypeError`. -/
theorem C3_degenerate_grid_empty (d : List (List ℚ))
    (isoValue lngStart latStart gridSize : ℚ) (hne : d ≠ [])
    (hdeg : d.length < 2 ∨ (d.headD []).length < 2) :
    marchingSquare d isoValue lngStart latStart gridSize = some [] := by
  cases d with
  | nil => exact absurd rfl hne
  | cons r0 rest =>
    simp only [marchingSquare, List.head?_cons]
    rcases hdeg with h | h
    · have hr : rest = [] := by
        cases rest with
        | nil => rfl
        | cons a t => simp at h; omega
      subst hr
      simp
    · have hc : r0.length - 1 = 0 := by
        simp only [List.headD_cons] at h
        omega
      simp [hc]

/-- Witness for C3 (amended) at the one-sample grid `[[1]]`. -/
theorem C3_degenerate_grid_empty_witness :
    marchingSquare [[1]] 3 0 0 2 = some [] :=
  C3_degenerate_grid_empty [[1]] 3 0 0 2 (by simp) (Or.inl (by simp))

/-- C6: the concrete scenario `marchingSquare([[1,1],[1,10]], 5, 0, 0, 1)`
returns exactly one segment; its square's pattern is `[(0, 1)]` (bottom edge
to right edge), the interpolation of corner values `(1, 10)` at threshold 5
is `4/9`, and both endpoints sit at fraction `4/9` along their edge: the
bottom-edge endpoint at `x = 1/2 + 4/9` on the edge spanning
`x ∈ [1/2, 3/2]`, the right-edge endpoint at `y = 1/2 + 4/9` on the edge
spanning `y ∈ [1/2, 3/2]`. -/
theorem C6_concrete_scenario :
    marchingSquare [[1, 1], [1, 10]] 5 0 0 1 =
      some [((some (1/2 + 4/9), some (3/2)), (some (3/2), some (1/2 + 4/9)))] ∧
    linearInterpolation 1 10 5 = some (4/9) ∧
    getBasicLines (cornerValue [[1, 1], [1, 10]] 0 0) 5 = [(0, 1)] := by
  refine ⟨marchingSquare_scenario, by norm_num [linearInterpolation], ?_⟩
  norm_num [cornerValue, sample, getBasicLines, getCornerBinary, binarySum,
    List.enum, List.getD, basicLineTable]

/-- C9: `linearInterpolation` sanity — value `0` at `v1`, `1` at `v2`, `1/2`
at the midpoint (for `v1 ≠ v2`), and the `Infinity` sentinel (modelled
`none`) whenever the two edge values are equal. -/
theorem C9_linearInterpolation_sanity (v1 v2 v x : ℚ) (h : v1 ≠ v2) :
    linearInterpolation v1 v2 v1 = some 0 ∧
    linearInterpolation v1 v2 v2 = some 1 ∧
    linearInterpolation v1 v2 ((v1 + v2) / 2) = some (1/2) ∧
    linearInterpolation v v x = none := by
  have hsub : v2 - v1 ≠ 0 := sub_ne_zero.mpr (Ne.symm h)
  unfold linearInterpolation
  rw [if_neg (Ne.symm h), if_neg (Ne.symm h), if_neg (Ne.symm h), if_pos rfl]
  refine ⟨by norm_num, ?_, ?_, rfl⟩
  · rw [div_self hsub]
  · rw [Option.some.injEq, div_eq_iff hsub]
    ring

/-- Witness for C9 at `v1 = 2`, `v2 = 6`, `v = 3`, `x = 11`. -/
theorem C9_linearInterpolation_sanity_witness :
    linearInterpolation 2 6 2 = some 0 ∧
    linearInterpolation 2 6 6 = some 1 ∧
    linearInterpolation 2 6 ((2 + 6) / 2) = some (1/2) ∧
    linearInterpolation 3 3 11 = none :=
  C9_linearInterpolation_sanity 2 6 3 11 (by norm_num)

/-- C4: for a cell with corner values `[a, b, c, dv]`, the corner-binary sum
is `Σ bit_k · 2^k` with `bit_k = 1` iff the corner value strictly exceeds
`isoValue`, and whenever the sum is neither 5 nor 10 the resolved pattern is
exactly the Table 1 entry for that sum. -/
theorem C4_basic_table_lookup (a b c dv isoValue : ℚ)
    (h5 : binarySum (getCornerBinary [a, b, c, dv] isoValue) ≠ 5)
    (h10 : binarySum (getCornerBinary [a, b, c, dv] isoValue) ≠ 10) :
    binarySum (getCornerBinary [a, b, c, dv] isoValue) =
      (if a > isoValue then 1 else 0) + 2 * (if b > isoValue then 1 else 0) +
        4 * (if c > isoValue then 1 else 0) + 8 * (if dv > isoValue then 1 else 0) ∧
    getBasicLines [a, b, c, dv] isoValue =
      specTable1.getD (binarySum (getCornerBinary [a, b, c, dv] isoValue)) [] := by
  by_cases ha : isoValue < a <;> by_cases hb : isoValue < b <;>
    by_cases hc : isoValue < c <;> by_cases hd : isoValue < dv <;>
    first
      | (exfalso; apply h5; simp [ha, hb, hc, hd, getCornerBinary, binarySum, List.enum]; done)
      | (exfalso; apply h10; simp [ha, hb, hc, hd, getCornerBinary, binarySum, List.enum]; done)
      | (refine ⟨?_, ?_⟩ <;>
          simp [ha, hb, hc, hd, getCornerBinary, binarySum, getBasicLines,
            List.enum, List.getD, basicLineTable, specTable1])

/-- Witness for C4 at corner values `[0, 4, 0, 0]` and `isoValue = 1`
(corner-binary sum 2). -/
theorem C4_basic_table_lookup_witness :
    binarySum (getCornerBinary [0, 4, 0, 0] 1) =
      (if (0 : ℚ) > 1 then 1 else 0) + 2 * (if (4 : ℚ) > 1 then 1 else 0) +
        4 * (if (0 : ℚ) > 1 then 1 else 0) + 8 * (if (0 : ℚ) > 1 then 1 else 0) ∧
    getBasicLines [0, 4, 0, 0] 1 =
      specTable1.getD (binarySum (getCornerBinary [0, 4, 0, 0] 1)) [] :=
  C4_basic_table_lookup 0 4 0 0 1
    (by norm_num [getCornerBinary, binarySum, List.enum])
    (by norm_num [getCornerBinary, binarySum, List.enum])

/-- C5: the saddle rule.  For a cell with corner-binary sum 5 the resolved
pattern is `[(0,3),(1,2)]` when the mean of the four corner values is
`≥ isoValue` and `[(0,1),(2,3)]` otherwise; for sum 10 the two patterns are
swapped. -/
theorem C5_saddle_rule (a b c dv isoValue : ℚ) :
    (binarySum (getCornerBinary [a, b, c, dv] isoValue) = 5 →
      getBasicLines [a, b, c, dv] isoValue =
        if (a + b + c + dv) / 4 ≥ isoValue then [(0, 3), (1, 2)] else [(0, 1), (2, 3)]) ∧
    (binarySum (getCornerBinary [a, b, c, dv] isoValue) = 10 →
      getBasicLines [a, b, c, dv] isoValue =
        if (a + b + c + dv) / 4 ≥ isoValue then [(0, 1), (2, 3)] else [(0, 3), (1, 2)]) := by
  have hsum : ([a, b, c, dv] : List ℚ).sum = a + b + c + dv := by
    simp [List.sum_cons]
    ring
  constructor <;> intro h <;> simp [getBasicLines, h, hsum]

/-- Witness for C5: both saddle codes at `isoValue = 1`, with the mean `2`
above the threshold. -/
theorem C5_saddle_rule_witness :
    getBasicLines [4, 0, 4, 0] 1 = [(0, 3), (1, 2)] ∧
    getBasicLines [0, 4, 0, 4] 1 = [(0, 1), (2, 3)] := by
  constructor
  · have h := (C5_saddle_rule 4 0 4 0 1).1
      (by norm_num [getCornerBinary, binarySum, List.enum])
    rw [h]
    norm_num
  · have h := (C5_saddle_rule 0 4 0 4 1).2
      (by norm_num [getCornerBinary, binarySum, List.enum])
    rw [h]
    norm_num

/-- C7: when `isoValue` is strictly greater than every sample, or strictly
less than every sample, of a rectangular grid with at least one row and one
column, the result is the empty segment sequence (every cell classifies to
corner-binary code 0 or 15, whose patterns are empty). -/
theorem C7_extreme_isoValue_empty (d : List (List ℚ))
    (isoValue lngStart latStart gridSize : ℚ)
    (hrows : 1 ≤ d.length) (hcols : 1 ≤ (d.headD []).length)
    (hrect : ∀ r ∈ d, r.length = (d.headD []).length)
    (hiso : (∀ r ∈ d, ∀ v ∈ r, v < isoValue) ∨ (∀ r ∈ d, ∀ v ∈ r, isoValue < v)) :
    marchingSquare d isoValue lngStart latStart gridSize = some [] := by
  cases d with
  | nil => simp at hrows
  | cons r0 rest =>
    simp only [List.headD_cons] at hrect
    simp only [marchingSquare, List.head?_cons, Option.some.injEq]
    rw [List.flatMap_eq_nil_iff]
    intro i hi
    rw [List.mem_range] at hi
    rw [List.flatMap_eq_nil_iff]
    intro j hj
    rw [List.mem_range] at hj
    suffices hpat : getBasicLines (cornerValue (r0 :: rest) i j) isoValue = [] by
      simp [squareSegments, getActualLines, hpat]
    have hlen : ∀ i' < (r0 :: rest).length, ((r0 :: rest).getD i' []).length = r0.length := by
      intro i' hi'
      rw [List.getD_eq_getElem _ _ hi']
      exact hrect _ (List.getElem_mem _)
    have hsm : ∀ i' j', i' < (r0 :: rest).length → j' < r0.length →
        ∃ r ∈ (r0 :: rest), sample (r0 :: rest) i' j' ∈ r := by
      intro i' j' hi' hj'
      have e1 : (r0 :: rest).getD i' [] = (r0 :: rest)[i'] :=
        List.getD_eq_getElem _ _ hi'
      have hj2 : j' < (r0 :: rest)[i'].length := by
        rw [← e1, hlen i' hi']
        exact hj'
      refine ⟨(r0 :: rest)[i'], List.getElem_mem _, ?_⟩
      unfold sample
      rw [e1, List.getD_eq_getElem _ _ hj2]
      exact List.getElem_mem _
    have hb : ∀ v ∈ cornerValue (r0 :: rest) i j, ∃ r ∈ (r0 :: rest), v ∈ r := by
      intro v hv
      simp only [cornerValue, List.mem_cons, List.not_mem_nil, or_false] at hv
      have hi' : i < (r0 :: rest).length - 1 := by simpa using hi
      have hj' : j < r0.length - 1 := by simpa using hj
      rcases hv with rfl | rfl | rfl | rfl
      · exact hsm _ _ (by simp at hi' ⊢; omega) (by omega)
      · exact hsm _ _ (by simp at hi' ⊢; omega) (by omega)
      · exact hsm _ _ (by simp at hi' ⊢; omega) (by omega)
      · exact hsm _ _ (by simp at hi' ⊢; omega) (by omega)
    have m0 : sample (r0 :: rest) (i + 1) j ∈ cornerValue (r0 :: rest) i j := by
      simp [cornerValue]
    have m1 : sample (r0 :: rest) (i + 1) (j + 1) ∈ cornerValue (r0 :: rest) i j := by
      simp [cornerValue]
    have m2 : sample (r0 :: rest) i (j + 1) ∈ cornerValue (r0 :: rest) i j := by
      simp [cornerValue]
    have m3 : sample (r0 :: rest) i j ∈ cornerValue (r0 :: rest) i j := by
      simp [cornerValue]
    rcases hiso with hlt | hgt
    · have hnot : ∀ v ∈ cornerValue (r0 :: rest) i j, ¬(isoValue < v) := by
        intro v hv
        obtain ⟨r, hr, hvr⟩ := hb v hv
        exact not_lt.mpr (le_of_lt (hlt r hr v hvr))
      have h0 : getCornerBinary (cornerValue (r0 :: rest) i j) isoValue = [0, 0, 0, 0] := by
        simp [getCornerBinary, cornerValue, hnot _ m0, hnot _ m1, hnot _ m2, hnot _ m3]
      simp [getBasicLines, h0, binarySum, List.enum, List.getD, basicLineTable]
    · have hyes : ∀ v ∈ cornerValue (r0 :: rest) i j, isoValue < v := by
        intro v hv
        obtain ⟨r, hr, hvr⟩ := hb v hv
        exact hgt r hr v hvr
      have h1 : getCornerBinary (cornerValue (r0 :: rest) i j) isoValue = [1, 1, 1, 1] := by
        simp [getCornerBinary, cornerValue, hyes _ m0, hyes _ m1, hyes _ m2, hyes _ m3]
      simp [getBasicLines, h1, binarySum, List.enum, List.getD, basicLineTable]

/-- Witness for C7 at the grid `[[1, 2], [3, 4]]` with `isoValue = 9` above
every sample. -/
theorem C7_extreme_isoValue_empty_witness :
    marchingSquare [[1, 2], [3, 4]] 9 0 0 1 = some [] := by
  apply C7_extreme_isoValue_empty [[1, 2], [3, 4]] 9 0 0 1 (by simp) (by simp)
  · intro r hr
    fin_cases hr <;> rfl
  · left
    intro r hr
    fin_cases hr <;> (intro v hv; fin_cases hv <;> norm_num)

/-- Helper: `linearInterpolation` is invariant under adding a constant to
both corner values and the threshold. -/
theorem linearInterpolation_shift (v1 v2 isoValue k : ℚ) :
    linearInterpolation (v1 + k) (v2 + k) (isoValue + k) =
      linearInterpolation v1 v2 isoValue := by
  unfold linearInterpolation
  by_cases h : v2 = v1
  · rw [if_pos (by rw [h]), if_pos h]
  · rw [if_neg (fun hk => h (by linarith [add_right_cancel hk])),
      if_neg h, Option.some.injEq]
    congr 1 <;> ring

/-- Helper: the corner-binary classification is invariant under a uniform
shift of the samples and the threshold. -/
theorem getCornerBinary_shift (cv : List ℚ) (isoValue k : ℚ) :
    getCornerBinary (cv.map (fun v => v + k)) (isoValue + k) =
      getCornerBinary cv isoValue := by
  unfold getCornerBinary
  rw [List.map_map]
  apply List.map_congr_left
  intro v _
  simp [add_lt_add_iff_right]

/-- Helper: the resolved line pattern of a four-corner cell is invariant
under a uniform shift of the samples and the threshold. -/
theorem getBasicLines_shift (a b c dv isoValue k : ℚ) :
    getBasicLines [a + k, b + k, c + k, dv + k] (isoValue + k) =
      getBasicLines [a, b, c, dv] isoValue := by
  have hbin : getCornerBinary [a + k, b + k, c + k, dv + k] (isoValue + k) =
      getCornerBinary [a, b, c, dv] isoValue := by
    simpa using getCornerBinary_shift [a, b, c, dv] isoValue k
  have hcond : (([a + k, b + k, c + k, dv + k] : List ℚ).sum / 4 ≥ isoValue + k) ↔
      (([a, b, c, dv] : List ℚ).sum / 4 ≥ isoValue) := by
    simp only [List.sum_cons, List.sum_nil]
    constructor <;> intro h <;> linarith
  simp only [getBasicLines, hbin, hcond]

/-- Helper: the reflected interpolation values of a four-corner cell are
invariant under a uniform shift of the samples and the threshold. -/
theorem interpoValues_shift (a b c dv isoValue k : ℚ) :
    interpoValues [a + k, b + k, c + k, dv + k] (isoValue + k) =
      interpoValues [a, b, c, dv] isoValue := by
  simp only [interpoValues_explicit, rawInterpolation, List.getD, List.get?]
  norm_num [linearInterpolation_shift]

/-- Helper: in-range grid access commutes with a uniform shift of every
sample. -/
theorem sample_map_add (d : List (List ℚ)) (k : ℚ) (i j : Nat)
    (hi : i < d.length) (hj : j < (d.getD i []).length) :
    sample (d.map (fun r => r.map (fun v => v + k))) i j = sample d i j + k := by
  unfold sample
  have e1 : (d.getD i []) = d[i] := List.getD_eq_getElem _ _ hi
  have h1 : (d.map (fun r => r.map (fun v => v + k))).getD i [] =
      d[i].map (fun v => v + k) := by
    rw [List.getD_eq_getElem _ _ (by simpa using hi), List.getElem_map]
  rw [e1] at hj
  rw [h1, e1, List.getD_eq_getElem _ _ (by simpa using hj), List.getElem_map,
    List.getD_eq_getElem _ _ hj]

/-- C8: adding the same constant `k` to every sample and to the threshold
leaves the output segments of `marchingSquare` unchanged (for a rectangular
grid, with the origin and grid size held fixed). -/
theorem C8_uniform_shift_invariance (d : List (List ℚ))
    (isoValue lngStart latStart gridSize k : ℚ)
    (hrect : ∀ r ∈ d, r.length = (d.headD []).length) :
    marchingSquare (d.map (fun r => r.map (fun v => v + k))) (isoValue + k)
        lngStart latStart gridSize =
      marchingSquare d isoValue lngStart latStart gridSize := by
  cases d with
  | nil => simp [marchingSquare]
  | cons r0 rest =>
    simp only [List.headD_cons] at hrect
    simp only [marchingSquare, List.map_cons, List.head?_cons, Option.some.injEq,
      List.length_map, List.length_cons, Nat.add_sub_cancel]
    have hlen : ∀ i' < (r0 :: rest).length, ((r0 :: rest).getD i' []).length = r0.length := by
      intro i' hi'
      rw [List.getD_eq_getElem _ _ hi']
      exact hrect _ (List.getElem_mem _)
    apply List.flatMap_congr
    intro i hi
    rw [List.mem_range] at hi
    apply List.flatMap_congr
    intro j hj
    rw [List.mem_range] at hj
    have b1 : i + 1 < (r0 :: rest).length := by
      simp only [List.length_cons]
      omega
    have b0 : i < (r0 :: rest).length := by
      simp only [List.length_cons]
      omega
    have m0 : sample ((r0 :: rest).map (fun r => r.map (fun v => v + k))) (i + 1) j =
        sample (r0 :: rest) (i + 1) j + k :=
      sample_map_add _ k (i + 1) j b1 (by rw [hlen (i + 1) b1]; omega)
    have m1 : sample ((r0 :: rest).map (fun r => r.map (fun v => v + k))) (i + 1) (j + 1) =
        sample (r0 :: rest) (i + 1) (j + 1) + k :=
      sample_map_add _ k (i + 1) (j + 1) b1 (by rw [hlen (i + 1) b1]; omega)
    have m2 : sample ((r0 :: rest).map (fun r => r.map (fun v => v + k))) i (j + 1) =
        sample (r0 :: rest) i (j + 1) + k :=
      sample_map_add _ k i (j + 1) b0 (by rw [hlen i b0]; omega)
    have m3 : sample ((r0 :: rest).map (fun r => r.map (fun v => v + k))) i j =
        sample (r0 :: rest) i j + k :=
      sample_map_add _ k i j b0 (by rw [hlen i b0]; omega)
    simp only [List.map_cons] at m0 m1 m2 m3
    unfold squareSegments cornerValue
    rw [m0, m1, m2, m3, getBasicLines_shift]
    unfold getActualLines
    rw [interpoValues_shift]

/-- Witness for C8 at the grid `[[1, 2], [3, 4]]`, threshold `5` and shift
`k = 10`. -/
theorem C8_uniform_shift_invariance_witness :
    marchingSquare ([[1, 2], [3, 4]].map (fun r => r.map (fun v => v + 10)))
        (5 + 10) 0 0 1 =
      marchingSquare [[1, 2], [3, 4]] 5 0 0 1 :=
  C8_uniform_shift_invariance [[1, 2], [3, 4]] 5 0 0 1 10
    (by intro r hr; fin_cases hr <;> rfl)

/-- Helper: when the two corner values adjacent to edge `e` differ, the
stored interpolation value for edge `e` is finite. -/
theorem interpoValues_getD_isSome (cv : List ℚ) (isoValue : ℚ) (e : Nat) (he : e < 4)
    (hne : cv.getD ((e + 1) % 4) 0 ≠ cv.getD e 0) :
    ((interpoValues cv isoValue).getD e none).isSome := by
  interval_cases e <;>
    (norm_num at hne
     simp [interpoValues_explicit, rawInterpolation, linearInterpolation,
       List.getD, hne])

/-- Helper: both coordinates of the point emitted for edge `e` are finite as
soon as the stored interpolation value for edge `e` is finite. -/
theorem edgePoint_isSome (iv : List JsVal) (column row : Nat)
    (lngStart latStart size : ℚ) (e : Nat) (hiv : (iv.getD e none).isSome) :
    (edgePoint iv column row lngStart latStart size e).1.isSome ∧
      (edgePoint iv column row lngStart latStart size e).2.isSome := by
  unfold edgePoint
  rw [List.getD, List.get?_eq_getElem?] at hiv
  constructor <;> simp only [Option.isSome_map'] <;> split <;> simp [hiv]

/-- C10: if, for every enumerated cell, every edge appearing in the cell's
resolved line pattern has distinct adjacent corner values, then every
coordinate of every output segment is finite (`isSome`): the `Infinity`
sentinel never reaches the output under this precondition.  (All inputs are
rationals, hence finite, in this embedding.) -/
theorem C10_finite_coordinates (d : List (List ℚ))
    (isoValue lngStart latStart gridSize : ℚ) (out : List Segment)
    (h : marchingSquare d isoValue lngStart latStart gridSize = some out)
    (hnd : ∀ i j, i < d.length - 1 → j < (d.headD []).length - 1 →
      ∀ l ∈ getBasicLines (cornerValue d i j) isoValue,
        (cornerValue d i j).getD l.1 0 ≠ (cornerValue d i j).getD ((l.1 + 1) % 4) 0 ∧
        (cornerValue d i j).getD l.2 0 ≠ (cornerValue d i j).getD ((l.2 + 1) % 4) 0)
    (s : Segment) (hs : s ∈ out) :
    s.1.1.isSome ∧ s.1.2.isSome ∧ s.2.1.isSome ∧ s.2.2.isSome := by
  obtain ⟨i, j, hi, hj, l, hl, rfl⟩ :=
    mem_marchingSquare d isoValue lngStart latStart gridSize out h s hs
  obtain ⟨h1, h2⟩ := getBasicLines_edge_lt _ _ l hl
  obtain ⟨hn1, hn2⟩ := hnd i j hi hj l hl
  have k1 := interpoValues_getD_isSome (cornerValue d i j) isoValue l.1 h1 (Ne.symm hn1)
  have k2 := interpoValues_getD_isSome (cornerValue d i j) isoValue l.2 h2 (Ne.symm hn2)
  obtain ⟨a1, a2⟩ := edgePoint_isSome _ j i lngStart latStart gridSize l.1 k1
  obtain ⟨b1, b2⟩ := edgePoint_isSome _ j i lngStart latStart gridSize l.2 k2
  exact ⟨a1, a2, b1, b2⟩

/-- Witness for C10 at the scenario `marchingSquare([[1,1],[1,10]], 5, 0, 0, 1)`,
whose only pattern edges (0 and 1) have distinct adjacent corner values while
edges 2 and 3 (absent from the pattern) have equal ones. -/
theorem C10_finite_coordinates_witness :
    (some (1/2 + 4/9) : JsVal).isSome ∧ (some (3/2) : JsVal).isSome ∧
      (some (3/2) : JsVal).isSome ∧ (some (1/2 + 4/9) : JsVal).isSome := by
  refine C10_finite_coordinates [[1, 1], [1, 10]] 5 0 0 1 _ marchingSquare_scenario
    ?_ ((some (1/2 + 4/9), some (3/2)), (some (3/2), some (1/2 + 4/9))) (by simp)
  intro i j hi hj l hl
  norm_num at hi hj
  have hi0 : i = 0 := by omega
  have hj0 : j = 0 := by omega
  subst hi0
  subst hj0
  have hpat : getBasicLines (cornerValue [[1, 1], [1, 10]] 0 0) 5 = [(0, 1)] := by
    norm_num [cornerValue, sample, getBasicLines, getCornerBinary, binarySum,
      List.enum, List.getD, basicLineTable]
  rw [hpat] at hl
  fin_cases hl
  constructor <;> norm_num [cornerValue, sample, List.getD]

end MarchingSquare
